import Mathlib

/-!
# The LRU cache of `lru/lru.go`

A shallow embedding of the package `lru` and the properties of its public
operations `New`, `Get`, `RemoveOldest`, `Add` and `Len`.

Modelling choices.

* `container/list` and the built-in map are not part of the package; they are
  modelled by their documented behaviour.  Every list element that `PushFront`
  allocates gets an address (its index in `Cache.elems`); the doubly linked
  list `ll` is the sequence of the addresses of the linked elements, front
  first; the map `cache` is an association list from keys to addresses.
* `Value` is an interface with the single method `Len() int`; a payload is
  modelled by a tag (what the payload is) and the integer `Len()` returns.  The
  `nil` interface value, on which `Len()` cannot be called, is not a payload.
* `nBytes` and `maxBytes` are `int64` in the source and `Int` here: the
  development is about caches whose byte totals stay below `2^63`, where no
  `int64` addition wraps around.
* `OnEvicted` is caller code.  Only whether it is `nil` matters to the package;
  every call made to it is recorded, in order, in `Cache.calls`.
* The `for` loop of `Add` is run with fuel: `none` means that the loop has not
  finished within the given number of tests of its condition.  A result that is
  reached with some fuel is reached with any larger fuel (`exec_mono`).
-/

namespace Lru

/-! ## Data model -/

/-- A payload behind the interface `Value`: `tag` identifies the payload, `Len` is
what its method `Len()` returns. -/
structure Value where
  tag : Nat
  Len : Int
deriving DecidableEq, Repr

/-- The struct `entry`: what a list element holds. -/
structure entry where
  key : String
  value : Value
deriving DecidableEq, Repr

/-- The struct `Cache`.  `elems` holds the list elements allocated so far (the
element at address `a` is `elems[a]`), `ll` the addresses of the elements linked
in the list, front first, `cache` the map from keys to element addresses.
`OnEvicted` is `true` when the callback is not `nil`; `calls` records the calls
made to it, oldest first. -/
structure Cache where
  maxBytes : Int
  nBytes : Int
  elems : List entry
  ll : List Nat
  cache : List (String × Nat)
  OnEvicted : Bool
  calls : List (String × Value)
deriving DecidableEq, Repr

/-- The built-in `len(key)`: the number of bytes of the string. -/
def keyLen (key : String) : Int := (key.utf8ByteSize : Int)

/-! ## The built-in map -/

/-- The lookup `m[k]` with its `ok` flag: `none` when `k` is not a key of `m`. -/
def mapGet : List (String × Nat) → String → Option Nat
  | [], _ => none
  | (k', a) :: m, k => if k' = k then some a else mapGet m k

/-- The statement `delete(m, k)`. -/
def mapDelete (m : List (String × Nat)) (k : String) : List (String × Nat) :=
  m.filter (fun p => decide (p.1 ≠ k))

/-- The assignment `m[k] = a`. -/
def mapSet (m : List (String × Nat)) (k : String) (a : Nat) : List (String × Nat) :=
  (k, a) :: mapDelete m k

/-- The keys of the map. -/
def mapKeys (m : List (String × Nat)) : List String := m.map Prod.fst

/-! ## `container/list` -/

/-- The method `(*List).MoveToFront`: an element that is not linked in the list
leaves the list unchanged. -/
def MoveToFront (l : List Nat) (e : Nat) : List Nat :=
  if e ∈ l then e :: l.erase e else l

/-- The method `(*List).Back`: the last element, `none` for `nil`. -/
def Back (l : List Nat) : Option Nat := l.getLast?

/-- The method `(*List).Remove`. -/
def Remove (l : List Nat) (e : Nat) : List Nat := l.erase e

/-- The entry held by the element at address `a` (`ele.Value.(*entry)`). -/
def entryAt (c : Cache) (a : Nat) : entry :=
  c.elems.getD a ⟨"", ⟨0, 0⟩⟩

/-! ## The package -/

/-- The constructor `New`. -/
def New (maxBytes : Int) (OnEvicted : Bool) : Cache :=
  { maxBytes := maxBytes, nBytes := 0, elems := [], ll := [], cache := [],
    OnEvicted := OnEvicted, calls := [] }

/-- The method `Get`: the result `(value, ok)` is `some value` for `ok = true` and
`none` for the zero result `(nil, false)`; the second component is the cache
after the call. -/
def Get (c : Cache) (key : String) : Option Value × Cache :=
  match mapGet c.cache key with
  | some ele =>
    let kv := entryAt c ele
    (some kv.value, { c with ll := MoveToFront c.ll ele })
  | none => (none, c)

/-- The method `RemoveOldest`. -/
def RemoveOldest (c : Cache) : Cache :=
  match Back c.ll with
  | none => c
  | some ele =>
    let kv := entryAt c ele
    { c with
      ll := Remove c.ll ele
      cache := mapDelete c.cache kv.key
      nBytes := c.nBytes - (keyLen kv.key + kv.value.Len)
      calls := if c.OnEvicted then c.calls ++ [(kv.key, kv.value)] else c.calls }

/-- The condition `c.maxBytes != 0 && c.maxBytes < c.nBytes` of the loop of `Add`. -/
def overBudget (c : Cache) : Prop := c.maxBytes ≠ 0 ∧ c.maxBytes < c.nBytes

instance (c : Cache) : Decidable (overBudget c) := by
  unfold overBudget
  infer_instance

/-- The loop `for c.maxBytes != 0 && c.maxBytes < c.nBytes { c.RemoveOldest() }`
of `Add`: `fuel` bounds the number of times the condition is tested. -/
def evictLoop : Nat → Cache → Option Cache
  | 0, _ => none
  | fuel + 1, c =>
    if overBudget c then evictLoop fuel (RemoveOldest c) else some c

/-- The three statements of `Add` that insert a key which is not in the map:
`PushFront`, the map assignment and the addition to `nBytes`. -/
def pushEntry (c : Cache) (key : String) (value : Value) : Cache :=
  { c with
    elems := c.elems ++ [⟨key, value⟩]
    ll := c.elems.length :: c.ll
    cache := mapSet c.cache key c.elems.length
    nBytes := c.nBytes + (keyLen key + value.Len) }

/-- The method `Add`; `none` when the eviction loop does not finish within
`fuel` tests. -/
def Add (fuel : Nat) (c : Cache) (key : String) (value : Value) : Option Cache :=
  match mapGet c.cache key with
  | some ele =>
    let kv := entryAt c ele
    some { c with
      ll := MoveToFront c.ll ele
      nBytes := c.nBytes + (value.Len + kv.value.Len)
      elems := c.elems.set ele ⟨kv.key, value⟩ }
  | none => evictLoop fuel (pushEntry c key value)

/-- The method `Len`. -/
def Len (c : Cache) : Int := (c.ll.length : Int)

/-! ## Sequences of calls -/

/-- A call of one of the methods of a cache. -/
inductive Op where
  | get (key : String)
  | add (key : String) (value : Value)
  | removeOldest
  | len
deriving DecidableEq, Repr

/-- The cache after one call. -/
def step (fuel : Nat) (c : Cache) : Op → Option Cache
  | .get key => some (Get c key).2
  | .add key value => Add fuel c key value
  | .removeOldest => some (RemoveOldest c)
  | .len => some c

/-- The cache after a sequence of calls, each call of `Add` run with `fuel`. -/
def exec (fuel : Nat) : Cache → List Op → Option Cache
  | c, [] => some c
  | c, op :: ops => (step fuel c op).bind (fun c' => exec fuel c' ops)

/-- The entries of the recency list, most recently used first. -/
def entries (c : Cache) : List entry := c.ll.map (entryAt c)

/-- The true size of the stored entries: the sum of `len(key) + value.Len()`. -/
def usedBytes (c : Cache) : Int := ((entries c).map (fun e => keyLen e.key + e.value.Len)).sum

/-! ## Well-formed caches -/

/-- The representation invariant of a cache: the linked elements are distinct and
allocated, and the map sends exactly the key of every linked element to that
element (so the linked elements hold distinct keys). -/
structure WF (c : Cache) : Prop where
  nodup : c.ll.Nodup
  alloc : ∀ a ∈ c.ll, a < c.elems.length
  index : ∀ k a, mapGet c.cache k = some a ↔ (a ∈ c.ll ∧ (entryAt c a).key = k)
  mapNodup : (mapKeys c.cache).Nodup

/-- The states a cache can be in after a finite sequence of calls on a new cache. -/
def Reachable (c : Cache) : Prop :=
  ∃ (maxBytes : Int) (cb : Bool) (fuel : Nat) (ops : List Op),
    exec fuel (New maxBytes cb) ops = some c

/-! ## The time of the last touch -/

/-- `Touched c t n`: the cache is in state `c` after `n` touches, and `t k` is the
number of the last touch of the key `k` (`0` when `k` was never touched).  A touch
is a `Get` that hits or an `Add`.  `RemoveOldest` may run in every state, as a
call of the method or as a round of the eviction loop of `Add`; `addAbsent` is
the state in which `Add` enters that loop.  A `Get` that misses and `Len` do not
change the state. -/
inductive Touched : Cache → (String → Nat) → Nat → Prop
  | new (maxBytes : Int) (cb : Bool) : Touched (New maxBytes cb) (fun _ => 0) 0
  | getHit {c : Cache} {t : String → Nat} {n : Nat} (k : String) (a : Nat) :
      Touched c t n → mapGet c.cache k = some a →
      Touched (Get c k).2 (Function.update t k (n + 1)) (n + 1)
  | addPresent {c : Cache} {t : String → Nat} {n : Nat} (fuel : Nat) (k : String)
      (v : Value) (a : Nat) (c' : Cache) :
      Touched c t n → mapGet c.cache k = some a → Add fuel c k v = some c' →
      Touched c' (Function.update t k (n + 1)) (n + 1)
  | addAbsent {c : Cache} {t : String → Nat} {n : Nat} (k : String) (v : Value) :
      Touched c t n → mapGet c.cache k = none →
      Touched (pushEntry c k v) (Function.update t k (n + 1)) (n + 1)
  | evict {c : Cache} {t : String → Nat} {n : Nat} :
      Touched c t n → Touched (RemoveOldest c) t n

/-! ## The history of a cache -/

/-- The value that the call `op` stores for the key `k`, when it is an `Add` of `k`. -/
def addedValue (k : String) : Op → Option Value
  | .add k' v => if k' = k then some v else none
  | _ => none

/-- The value of the last `Add` of the key `k` in a sequence of calls. -/
def lastAdded (ops : List Op) (k : String) : Option Value :=
  ops.reverse.findSome? (addedValue k)

/-- The size `len(key) + value.Len()` of an entry. -/
def entrySize (e : entry) : Int := keyLen e.key + e.value.Len

/-- The keys of the stored entries, most recently used first. -/
def keys (c : Cache) : List String := (entries c).map entry.key

/-- The entries that are stored during the call `op` on the cache `c`: the entries
of `c`, and for an `Add` the entry it stores, in the place of the entry it
overwrites. -/
def storedDuring (c : Cache) : Op → List entry
  | .add k v => ⟨k, v⟩ :: (entries c).filter (fun e => decide (e.key ≠ k))
  | _ => entries c

/-- The entries that the call `op` removes from the cache `c`, where `c'` is the
cache after the call: the entries stored during the call whose key is not stored
after it, the least recently used first, as pairs of key and value. -/
def removedBy (c : Cache) (op : Op) (c' : Cache) : List (String × Value) :=
  (((storedDuring c op).reverse).filter (fun e => decide (e.key ∉ keys c'))).map
    (fun e => (e.key, e.value))

/-- The entries removed by a sequence of calls, in the order of their removal. -/
def removedAlong (fuel : Nat) : Cache → List Op → List (String × Value)
  | _, [] => []
  | c, op :: ops =>
    match step fuel c op with
    | some c' => removedBy c op c' ++ removedAlong fuel c' ops
    | none => []

/-- The key that the call `op` adds, when it is an `Add`. -/
def addedKey : Op → Option String
  | .add k _ => some k
  | _ => none

/-- The keys of the `Add` calls of a sequence of calls, in the order of the calls. -/
def addedKeys (ops : List Op) : List String := ops.filterMap addedKey

/-! ## Sample states -/

/-- The cache after `Add("a", v)`, `Add("b", w)`, `Get("a")` on `New(20, cb)` with a
callback and two values of length 5. -/
def sampleCache : Cache :=
  { maxBytes := 20, nBytes := 12,
    elems := [⟨"a", ⟨1, 5⟩⟩, ⟨"b", ⟨2, 5⟩⟩], ll := [0, 1],
    cache := [("b", 1), ("a", 0)], OnEvicted := true, calls := [] }

/-- The calls that lead to `sampleCache`. -/
def sampleOps : List Op := [.add "a" ⟨1, 5⟩, .add "b" ⟨2, 5⟩, .get "a"]

/-- The calls `Add("a", v)`, `Add("b", w)`, `Get("a")`, `Add("d", x)` with values of
length 5. -/
def evictOps : List Op :=
  [.add "a" ⟨1, 5⟩, .add "b" ⟨2, 5⟩, .get "a", .add "d" ⟨3, 5⟩]

/-- The cache after `evictOps` on `New(15, cb)` with a callback: the last `Add` has
evicted `"b"`. -/
def evictedCache : Cache :=
  { maxBytes := 15, nBytes := 12,
    elems := [⟨"a", ⟨1, 5⟩⟩, ⟨"b", ⟨2, 5⟩⟩, ⟨"d", ⟨3, 5⟩⟩], ll := [2, 0],
    cache := [("d", 2), ("a", 0)], OnEvicted := true, calls := [("b", ⟨2, 5⟩)] }

/-! ## The map -/

theorem mem_mapKeys_iff (m : List (String × Nat)) (k : String) :
    k ∈ mapKeys m ↔ ∃ a, mapGet m k = some a := by
  induction m with
  | nil => simp [mapKeys, mapGet]
  | cons p m ih =>
    obtain ⟨k1, a1⟩ := p
    by_cases h : k1 = k
    · simp [mapKeys, mapGet, h]
    · have h2 : ¬ k = k1 := fun e => h e.symm
      simp only [mapKeys] at ih
      simp [mapKeys, mapGet, h, h2, ih]

theorem mapGet_mapDelete (m : List (String × Nat)) (k k' : String) :
    mapGet (mapDelete m k) k' = if k = k' then none else mapGet m k' := by
  induction m with
  | nil => simp [mapDelete, mapGet]
  | cons p m ih =>
    obtain ⟨k1, a1⟩ := p
    simp only [mapDelete, decide_not] at ih ⊢
    by_cases h1 : k1 = k
    · subst h1
      by_cases h2 : k1 = k'
      · simpa [mapGet, h2] using ih
      · simpa [mapGet, h2] using ih
    · by_cases h2 : k1 = k'
      · subst h2
        simp [mapGet, h1, Ne.symm h1]
      · simpa [mapGet, h1, h2] using ih

theorem mapGet_mapSet (m : List (String × Nat)) (k k' : String) (a : Nat) :
    mapGet (mapSet m k a) k' = if k = k' then some a else mapGet m k' := by
  by_cases h : k = k'
  · simp [mapSet, mapGet, h]
  · simp [mapSet, mapGet, h, mapGet_mapDelete]

theorem mapKeys_mapDelete_nodup (m : List (String × Nat)) (k : String)
    (h : (mapKeys m).Nodup) : (mapKeys (mapDelete m k)).Nodup := by
  unfold mapKeys mapDelete
  exact h.sublist ((List.filter_sublist m).map Prod.fst)

theorem mapKeys_mapSet_nodup (m : List (String × Nat)) (k : String) (a : Nat)
    (h : (mapKeys m).Nodup) : (mapKeys (mapSet m k a)).Nodup := by
  have h1 : k ∉ mapKeys (mapDelete m k) := by
    rw [mem_mapKeys_iff]
    simp [mapGet_mapDelete]
  have h2 := mapKeys_mapDelete_nodup m k h
  simp only [mapSet, mapKeys, List.map_cons, List.nodup_cons]
  exact ⟨h1, h2⟩

/-! ## The list -/

theorem erase_back (l : List Nat) (a : Nat) (hn : l.Nodup) (hb : Back l = some a) :
    Remove l a = l.dropLast := by
  unfold Back at hb
  unfold Remove
  have h1 : l = l.dropLast ++ [a] := (List.dropLast_append_getLast? a hb).symm
  have h2 : a ∉ l.dropLast := by
    intro hmem
    rw [h1] at hn
    have := List.nodup_append.mp hn
    exact this.2.2 hmem (List.mem_singleton_self a)
  conv_lhs => rw [h1]
  rw [List.erase_append_right _ h2]
  simp

theorem Back_mem (l : List Nat) (a : Nat) (hb : Back l = some a) : a ∈ l := by
  unfold Back at hb
  rw [← List.dropLast_append_getLast? a hb]
  simp

/-! ## The entries of a cache -/

theorem entryAt_congr (c c' : Cache) (a : Nat) (h : c'.elems = c.elems) :
    entryAt c' a = entryAt c a := by
  simp [entryAt, h]

theorem entries_congr (c c' : Cache) (h : c'.elems = c.elems) (hl : c'.ll = c.ll) :
    entries c' = entries c := by
  simp [entries, entryAt, h, hl]

theorem WF.key_inj {c : Cache} (wf : WF c) {a b : Nat} (ha : a ∈ c.ll) (hb : b ∈ c.ll)
    (h : (entryAt c a).key = (entryAt c b).key) : a = b := by
  have h1 := (wf.index (entryAt c a).key a).mpr ⟨ha, rfl⟩
  have h2 := (wf.index (entryAt c a).key b).mpr ⟨hb, h.symm⟩
  rw [h1] at h2
  exact Option.some.inj h2

theorem WF.keys_nodup {c : Cache} (wf : WF c) : ((entries c).map entry.key).Nodup := by
  unfold entries
  rw [List.map_map]
  exact List.Nodup.map_on (fun a ha b hb h => wf.key_inj ha hb h) wf.nodup

theorem WF.mem_keys_iff {c : Cache} (wf : WF c) (k : String) :
    k ∈ (entries c).map entry.key ↔ ∃ a, mapGet c.cache k = some a := by
  simp only [entries, List.map_map, List.mem_map, Function.comp]
  constructor
  · rintro ⟨a, ha, hk⟩
    exact ⟨a, (wf.index k a).mpr ⟨ha, hk⟩⟩
  · rintro ⟨a, h⟩
    exact ⟨a, (wf.index k a).mp h⟩

theorem WF.absent_iff {c : Cache} (wf : WF c) (k : String) :
    mapGet c.cache k = none ↔ k ∉ (entries c).map entry.key := by
  rw [wf.mem_keys_iff]
  cases mapGet c.cache k <;> simp

theorem WF.erase_eq_filter {c : Cache} (wf : WF c) {k : String} {a : Nat}
    (h : mapGet c.cache k = some a) (f : Nat → entry)
    (hf : ∀ b ∈ c.ll, b ≠ a → f b = entryAt c b) :
    (c.ll.erase a).map f = (entries c).filter (fun e => decide (e.key ≠ k)) := by
  have ha := (wf.index k a).mp h
  rw [wf.nodup.erase_eq_filter, entries, List.filter_map]
  have h1 : List.filter ((fun e => decide (e.key ≠ k)) ∘ entryAt c) c.ll
      = List.filter (fun x => x != a) c.ll := by
    apply List.filter_congr
    intro b hb
    by_cases hba : b = a
    · subst hba; simp [ha.2]
    · have : (entryAt c b).key ≠ k := by
        intro hk
        exact hba (Option.some.inj ((wf.index k b).mpr ⟨hb, hk⟩ ▸ h).symm).symm
      simp [hba, this]
  rw [h1]
  apply List.map_congr_left
  intro b hb
  have hb2 := List.mem_filter.mp hb
  exact hf b hb2.1 (by simpa using hb2.2)

/-! ## What each operation does to the entries -/

theorem WF_New (maxBytes : Int) (cb : Bool) : WF (New maxBytes cb) := by
  constructor <;> simp [New, mapGet, mapKeys]

theorem entries_pushEntry {c : Cache} (wf : WF c) (k : String) (v : Value) :
    entries (pushEntry c k v) = ⟨k, v⟩ :: entries c := by
  simp only [entries, pushEntry, List.map_cons]
  congr 1
  · simp [entryAt, List.getD_eq_getElem?_getD]
  · apply List.map_congr_left
    intro a ha
    have := wf.alloc a ha
    simp [entryAt, List.getD_eq_getElem?_getD, List.getElem?_append_left this]

theorem entries_RemoveOldest {c : Cache} (wf : WF c) :
    entries (RemoveOldest c) = (entries c).dropLast := by
  unfold RemoveOldest
  cases hb : Back c.ll with
  | none =>
    have : c.ll = [] := by simpa [Back] using hb
    simp [entries, this]
  | some a =>
    simp only [entries, erase_back c.ll a wf.nodup hb, List.map_dropLast]
    rfl

theorem entries_Get_hit {c : Cache} (wf : WF c) {k : String} {a : Nat}
    (h : mapGet c.cache k = some a) :
    entries (Get c k).2 = entryAt c a :: (entries c).filter (fun e => decide (e.key ≠ k)) := by
  have ha := (wf.index k a).mp h
  simp only [Get, h, entries, MoveToFront, ha.1, if_true, List.map_cons]
  congr 1
  exact wf.erase_eq_filter h _ (fun b _ _ => rfl)

/-- The cache that the first branch of `Add` returns: the key is in the map. -/
theorem Add_present (fuel : Nat) (c : Cache) (k : String) (v : Value) (a : Nat)
    (h : mapGet c.cache k = some a) :
    Add fuel c k v = some { c with
      ll := MoveToFront c.ll a
      nBytes := c.nBytes + (v.Len + (entryAt c a).value.Len)
      elems := c.elems.set a ⟨(entryAt c a).key, v⟩ } := by
  simp [Add, h]

/-- The second branch of `Add`: the key is not in the map. -/
theorem Add_absent (fuel : Nat) (c : Cache) (k : String) (v : Value)
    (h : mapGet c.cache k = none) :
    Add fuel c k v = evictLoop fuel (pushEntry c k v) := by
  simp [Add, h]

theorem entryAt_set (c c' : Cache) (a b : Nat) (e : entry)
    (h : c'.elems = c.elems.set a e) (ha : a < c.elems.length) :
    entryAt c' b = if b = a then e else entryAt c b := by
  by_cases hba : b = a
  · subst hba
    simp [entryAt, h, List.getD_eq_getElem?_getD, ha]
  · have : ¬ a = b := fun e => hba e.symm
    simp [entryAt, h, List.getD_eq_getElem?_getD, List.getElem?_set, hba, this]

theorem entries_Add_present {c c' : Cache} (wf : WF c) {fuel : Nat} {k : String} {v : Value}
    {a : Nat} (h : mapGet c.cache k = some a) (hc : Add fuel c k v = some c') :
    entries c' = ⟨k, v⟩ :: (entries c).filter (fun e => decide (e.key ≠ k)) := by
  have ha := (wf.index k a).mp h
  rw [Add_present fuel c k v a h] at hc
  have hc := Option.some.inj hc
  subst hc
  have hlt := wf.alloc a ha.1
  simp only [entries, MoveToFront, ha.1, if_true, List.map_cons]
  congr 1
  · rw [entryAt_set c _ a a _ rfl hlt, if_pos rfl, ha.2]
  · apply wf.erase_eq_filter h
    intro b _ hba
    rw [entryAt_set c _ a b _ rfl hlt, if_neg hba]

/-! ## The invariant is kept -/

theorem WF_of_perm {c c' : Cache} (wf : WF c) (hl : c'.ll.Perm c.ll)
    (he : ∀ a ∈ c.ll, (entryAt c' a).key = (entryAt c a).key)
    (hlen : c'.elems.length = c.elems.length) (hm : c'.cache = c.cache) : WF c' := by
  constructor
  · exact hl.nodup_iff.mpr wf.nodup
  · intro a ha
    rw [hlen]
    exact wf.alloc a (hl.mem_iff.mp ha)
  · intro k a
    rw [hm, wf.index k a, hl.mem_iff]
    constructor
    · rintro ⟨h1, h2⟩
      exact ⟨h1, (he a h1).trans h2⟩
    · rintro ⟨h1, h2⟩
      exact ⟨h1, (he a h1).symm.trans h2⟩
  · rw [hm]
    exact wf.mapNodup

theorem MoveToFront_perm (l : List Nat) (a : Nat) : (MoveToFront l a).Perm l := by
  unfold MoveToFront
  split
  · next h => exact (List.perm_cons_erase h).symm
  · exact List.Perm.refl l

theorem WF_Get {c : Cache} (wf : WF c) (k : String) : WF (Get c k).2 := by
  unfold Get
  cases h : mapGet c.cache k with
  | none => exact wf
  | some a =>
    exact WF_of_perm wf (MoveToFront_perm c.ll a) (fun _ _ => rfl) rfl rfl

theorem WF_Add_present {c c' : Cache} (wf : WF c) {fuel : Nat} {k : String} {v : Value}
    {a : Nat} (h : mapGet c.cache k = some a) (hc : Add fuel c k v = some c') : WF c' := by
  have ha := (wf.index k a).mp h
  rw [Add_present fuel c k v a h] at hc
  have hc := Option.some.inj hc
  subst hc
  have hlt := wf.alloc a ha.1
  refine WF_of_perm wf (MoveToFront_perm c.ll a) ?_ (by simp) rfl
  intro b _
  rw [entryAt_set c _ a b _ rfl hlt]
  split
  · next hba => rw [hba]
  · rfl

theorem WF_pushEntry {c : Cache} (wf : WF c) {k : String} (v : Value)
    (h : mapGet c.cache k = none) : WF (pushEntry c k v) := by
  have hfresh : c.elems.length ∉ c.ll := fun hm => Nat.lt_irrefl _ (wf.alloc _ hm)
  have hnew : entryAt (pushEntry c k v) c.elems.length = ⟨k, v⟩ := by
    simp [entryAt, pushEntry, List.getD_eq_getElem?_getD]
  have hold : ∀ a ∈ c.ll, entryAt (pushEntry c k v) a = entryAt c a := by
    intro a ha
    have := wf.alloc a ha
    simp [entryAt, pushEntry, List.getD_eq_getElem?_getD, List.getElem?_append_left this]
  constructor
  · simpa [pushEntry] using And.intro hfresh wf.nodup
  · intro a ha
    simp only [pushEntry, List.mem_cons, List.length_append, List.length_singleton] at ha ⊢
    rcases ha with rfl | ha
    · exact Nat.lt_succ_self _
    · exact Nat.lt_succ_of_lt (wf.alloc a ha)
  · intro k' a
    have hcache : (pushEntry c k v).cache = mapSet c.cache k c.elems.length := rfl
    have hll : (pushEntry c k v).ll = c.elems.length :: c.ll := rfl
    rw [hcache, hll, mapGet_mapSet, List.mem_cons]
    by_cases hk : k = k'
    · subst hk
      rw [if_pos rfl]
      constructor
      · intro e
        have e := Option.some.inj e
        subst e
        exact ⟨Or.inl rfl, by rw [hnew]⟩
      · rintro ⟨ha | ha, hkey⟩
        · rw [ha]
        · exfalso
          rw [hold a ha] at hkey
          have := (wf.index k a).mpr ⟨ha, hkey⟩
          rw [h] at this
          cases this
    · rw [if_neg hk, wf.index k' a]
      constructor
      · rintro ⟨ha, hkey⟩
        exact ⟨Or.inr ha, by rw [hold a ha]; exact hkey⟩
      · rintro ⟨ha | ha, hkey⟩
        · exfalso
          rw [ha, hnew] at hkey
          exact hk hkey
        · exact ⟨ha, by rw [← hold a ha]; exact hkey⟩
  · exact mapKeys_mapSet_nodup _ _ _ wf.mapNodup

theorem WF_RemoveOldest {c : Cache} (wf : WF c) : WF (RemoveOldest c) := by
  unfold RemoveOldest
  cases hb : Back c.ll with
  | none => exact wf
  | some t =>
    have ht : t ∈ c.ll := Back_mem c.ll t hb
    have hmem : ∀ a, a ∈ Remove c.ll t ↔ a ∈ c.ll ∧ a ≠ t := by
      intro a
      unfold Remove
      rw [wf.nodup.mem_erase_iff]
      tauto
    constructor
    · exact wf.nodup.erase t
    · intro a ha
      exact wf.alloc a ((hmem a).mp ha).1
    · intro k a
      show mapGet (mapDelete c.cache (entryAt c t).key) k = some a ↔
        a ∈ Remove c.ll t ∧ (entryAt c a).key = k
      rw [mapGet_mapDelete, hmem]
      by_cases hk : (entryAt c t).key = k
      · rw [if_pos hk]
        constructor
        · intro e; cases e
        · rintro ⟨⟨ha, hne⟩, hkey⟩
          exact absurd (wf.key_inj ha ht (hkey.trans hk.symm)) hne
      · rw [if_neg hk, wf.index k a]
        constructor
        · rintro ⟨ha, hkey⟩
          refine ⟨⟨ha, ?_⟩, hkey⟩
          intro e
          rw [e] at hkey
          exact hk hkey
        · rintro ⟨⟨ha, _⟩, hkey⟩
          exact ⟨ha, hkey⟩
    · exact mapKeys_mapDelete_nodup _ _ wf.mapNodup

theorem WF_evictLoop {fuel : Nat} {c c' : Cache} (wf : WF c)
    (h : evictLoop fuel c = some c') : WF c' := by
  induction fuel generalizing c with
  | zero => simp [evictLoop] at h
  | succ n ih =>
    unfold evictLoop at h
    split at h
    · exact ih (WF_RemoveOldest wf) h
    · cases h; exact wf

theorem WF_Add {fuel : Nat} {c c' : Cache} {k : String} {v : Value} (wf : WF c)
    (h : Add fuel c k v = some c') : WF c' := by
  cases hk : mapGet c.cache k with
  | some a => exact WF_Add_present wf hk h
  | none =>
    rw [Add_absent fuel c k v hk] at h
    exact WF_evictLoop (WF_pushEntry wf v hk) h

theorem WF_step {fuel : Nat} {c c' : Cache} {op : Op} (wf : WF c)
    (h : step fuel c op = some c') : WF c' := by
  cases op with
  | get k => simp only [step, Option.some.injEq] at h; subst h; exact WF_Get wf k
  | add k v => exact WF_Add wf h
  | removeOldest => simp only [step, Option.some.injEq] at h; subst h; exact WF_RemoveOldest wf
  | len => simp only [step, Option.some.injEq] at h; subst h; exact wf

theorem WF_exec {fuel : Nat} {ops : List Op} {c c' : Cache} (wf : WF c)
    (h : exec fuel c ops = some c') : WF c' := by
  induction ops generalizing c with
  | nil => simp only [exec, Option.some.injEq] at h; subst h; exact wf
  | cons op ops ih =>
    simp only [exec] at h
    cases hs : step fuel c op with
    | none => simp [hs] at h
    | some c1 =>
      rw [hs] at h
      exact ih (WF_step wf hs) h

theorem Reachable.wf {c : Cache} (h : Reachable c) : WF c := by
  obtain ⟨m, cb, fuel, ops, h⟩ := h
  exact WF_exec (WF_New m cb) h

/-! ## Accounting and the budget -/

/-- Claim C1: the accounting invariant does not survive an overwrite.  On
`New(0, nil)` the calls `Add("k", v)`, `Add("k", w)` with `v.Len() = w.Len() = 1`
return with `nBytes = 4`, while the one stored entry has size `len("k") + 1 = 2`:
the first branch of `Add` adds the old length where it has to subtract it. -/
theorem accounting_fails_after_overwrite :
    (exec 1 (New 0 false) [.add "k" ⟨1, 1⟩, .add "k" ⟨2, 1⟩]).map
      (fun c => (c.nBytes, usedBytes c, entries c)) = some (4, 2, [⟨"k", ⟨2, 1⟩⟩]) := by
  decide

/-- Claim C2: the budget does not bound `nBytes` after an overwrite.  On
`New(3, nil)` the calls `Add("a", v)`, `Add("a", w)` with `v.Len() = 0` and
`w.Len() = 5` return with `nBytes = 6 > 3 = maxBytes` and one entry stored (of
true size 6): the first branch of `Add` returns before the eviction loop. -/
theorem budget_exceeded_after_overwrite :
    (exec 1 (New 3 false) [.add "a" ⟨1, 0⟩, .add "a" ⟨2, 5⟩]).map
      (fun c => (c.maxBytes, c.nBytes, usedBytes c, Len c)) = some (3, 6, 6, 1) := by
  decide

/-- Claim C4: an overwrite changes `nBytes` by the sum of the two lengths, not by
their difference.  On `New(0, nil)`, after `Add("k", v1)` with `v1.Len() = 3` the
counter is `4`; `Add("k", v2)` with `v2.Len() = 5` makes it `12 = 4 + (5 + 3)`,
where `len("k") + v2.Len() = 6`. -/
theorem overwrite_adds_both_lengths :
    (Add 1 (New 0 false) "k" ⟨1, 3⟩).map (fun c => c.nBytes) = some 4 ∧
    ((Add 1 (New 0 false) "k" ⟨1, 3⟩).bind (fun c => Add 1 c "k" ⟨2, 5⟩)).map
      (fun c => (c.nBytes, keyLen "k" + 5)) = some (12, 6) := by
  decide

/-! ## The index and the list -/

theorem sampleCache_reachable : Reachable sampleCache :=
  ⟨20, true, 1, sampleOps, by decide⟩

/-- Claim C5: in every reachable state the map and the list hold the same keys,
every key once; the map sends a key to the linked element whose entry has that
key, and `Len()` is the number of keys of the map. -/
theorem index_matches_list (c : Cache) (h : Reachable c) :
    (∀ k, k ∈ mapKeys c.cache ↔ k ∈ (entries c).map entry.key) ∧
    (mapKeys c.cache).Nodup ∧ ((entries c).map entry.key).Nodup ∧ c.ll.Nodup ∧
    (∀ k a, mapGet c.cache k = some a ↔ (a ∈ c.ll ∧ (entryAt c a).key = k)) ∧
    Len c = ((mapKeys c.cache).length : Int) := by
  have wf := h.wf
  have hmem : ∀ k, k ∈ mapKeys c.cache ↔ k ∈ (entries c).map entry.key := by
    intro k
    rw [mem_mapKeys_iff, wf.mem_keys_iff]
  refine ⟨hmem, wf.mapNodup, wf.keys_nodup, wf.nodup, wf.index, ?_⟩
  have hp := (List.perm_ext_iff_of_nodup wf.mapNodup wf.keys_nodup).mpr hmem
  have := hp.length_eq
  simp only [entries, List.length_map] at this
  simp [Len, this]

theorem index_matches_list_witness :
    Reachable sampleCache ∧
    (∀ k, k ∈ mapKeys sampleCache.cache ↔ k ∈ (entries sampleCache).map entry.key) ∧
    (mapKeys sampleCache.cache).Nodup ∧ ((entries sampleCache).map entry.key).Nodup ∧
    sampleCache.ll.Nodup ∧
    (∀ k a, mapGet sampleCache.cache k = some a ↔
      (a ∈ sampleCache.ll ∧ (entryAt sampleCache a).key = k)) ∧
    Len sampleCache = ((mapKeys sampleCache.cache).length : Int) :=
  ⟨sampleCache_reachable, index_matches_list sampleCache sampleCache_reachable⟩

/-! ## `Get` on a key that is not stored -/

/-- Claim C7: in a reachable state `Get` of a key that is not stored returns
`(nil, false)` and leaves the cache as it is: the list, the map, `nBytes`,
`maxBytes` and the record of the calls of `OnEvicted` are the same. -/
theorem Get_miss_unchanged (c : Cache) (k : String) (h : Reachable c)
    (hk : k ∉ (entries c).map entry.key) : Get c k = (none, c) := by
  have := (h.wf.absent_iff k).mpr hk
  simp [Get, this]

theorem Get_miss_unchanged_witness :
    Reachable sampleCache ∧ "z" ∉ (entries sampleCache).map entry.key ∧
    Get sampleCache "z" = (none, sampleCache) :=
  ⟨sampleCache_reachable, by decide,
    Get_miss_unchanged sampleCache "z" sampleCache_reachable (by decide)⟩

/-! ## `RemoveOldest` -/

theorem RemoveOldest_back (c : Cache) (a : Nat) (hb : Back c.ll = some a) :
    RemoveOldest c = { c with
      ll := Remove c.ll a
      cache := mapDelete c.cache (entryAt c a).key
      nBytes := c.nBytes - (keyLen (entryAt c a).key + (entryAt c a).value.Len)
      calls := if c.OnEvicted then c.calls ++ [((entryAt c a).key, (entryAt c a).value)]
        else c.calls } := by
  simp [RemoveOldest, hb]

theorem RemoveOldest_empty (c : Cache) (h : c.ll = []) : RemoveOldest c = c := by
  simp [RemoveOldest, Back, h]

theorem back_of_entries {c : Cache} {rest : List entry} {t : entry}
    (h : entries c = rest ++ [t]) : ∃ a, Back c.ll = some a ∧ entryAt c a = t := by
  have h1 : (entries c).getLast? = some t := by rw [h]; exact List.getLast?_concat rest
  rw [entries, List.getLast?_map] at h1
  cases hb : c.ll.getLast? with
  | none => simp [hb] at h1
  | some a =>
    rw [hb] at h1
    exact ⟨a, hb, Option.some.inj h1⟩

theorem evictLoop_succ (fuel : Nat) (c : Cache) :
    evictLoop (fuel + 1) c =
      if overBudget c then evictLoop fuel (RemoveOldest c) else some c := rfl

theorem filter_absent (l : List entry) (k : String) (h : k ∉ l.map entry.key) :
    l.filter (fun x => decide (x.key ≠ k)) = l := by
  apply List.filter_eq_self.mpr
  intro x hx
  have : x.key ≠ k := fun e => h (e ▸ List.mem_map_of_mem entry.key hx)
  simpa using this

theorem Touched.evictLoop {c c' : Cache} {t : String → Nat} {n fuel : Nat}
    (h : Touched c t n) (hl : evictLoop fuel c = some c') : Touched c' t n := by
  induction fuel generalizing c with
  | zero => simp [Lru.evictLoop] at hl
  | succ f ih =>
    rw [evictLoop_succ] at hl
    split at hl
    · exact ih h.evict hl
    · cases hl; exact h

/-- Every call made on a state of `Touched` leads to a state of `Touched`. -/
theorem Touched.step {c c' : Cache} {t : String → Nat} {n fuel : Nat} {op : Op}
    (h : Touched c t n) (hs : step fuel c op = some c') : ∃ t' n', Touched c' t' n' := by
  cases op with
  | get k =>
    simp only [Lru.step, Option.some.injEq] at hs
    subst hs
    cases hk : mapGet c.cache k with
    | none => exact ⟨t, n, by simpa [Get, hk] using h⟩
    | some a => exact ⟨_, _, h.getHit k a hk⟩
  | add k v =>
    cases hk : mapGet c.cache k with
    | none =>
      rw [Lru.step, Add_absent fuel c k v hk] at hs
      exact ⟨_, _, (h.addAbsent k v hk).evictLoop hs⟩
    | some a => exact ⟨_, _, h.addPresent fuel k v a c' hk hs⟩
  | removeOldest =>
    simp only [Lru.step, Option.some.injEq] at hs
    subst hs
    exact ⟨t, n, h.evict⟩
  | len =>
    simp only [Lru.step, Option.some.injEq] at hs
    subst hs
    exact ⟨t, n, h⟩

/-- Every reachable state is a state of `Touched`. -/
theorem Touched.exec {fuel : Nat} {ops : List Op} {c c' : Cache} {t : String → Nat} {n : Nat}
    (h : Touched c t n) (he : exec fuel c ops = some c') : ∃ t' n', Touched c' t' n' := by
  induction ops generalizing c t n with
  | nil => simp only [Lru.exec, Option.some.injEq] at he; subst he; exact ⟨t, n, h⟩
  | cons op ops ih =>
    simp only [Lru.exec] at he
    cases hs : Lru.step fuel c op with
    | none => simp [hs] at he
    | some c1 =>
      rw [hs] at he
      obtain ⟨t1, n1, h1⟩ := h.step hs
      exact ih h1 he

theorem exec_append (fuel : Nat) (c : Cache) (ops : List Op) (op : Op) :
    exec fuel c (ops ++ [op]) = (exec fuel c ops).bind (fun c' => step fuel c' op) := by
  induction ops generalizing c with
  | nil => simp [exec]
  | cons o ops ih =>
    simp only [List.cons_append, exec]
    cases step fuel c o with
    | none => simp
    | some c1 => simp [ih]

theorem lastAdded_append (ops : List Op) (op : Op) (k : String) :
    lastAdded (ops ++ [op]) k = (addedValue k op).or (lastAdded ops k) := by
  simp only [lastAdded, List.reverse_append, List.reverse_singleton, List.singleton_append,
    List.findSome?_cons]
  cases addedValue k op <;> simp

theorem entries_eq_nil {c : Cache} (h : entries c = []) : c.ll = [] := by
  simpa [entries] using h

theorem entries_cases (c : Cache) :
    entries c = [] ∨ ∃ rest t, entries c = rest ++ [t] := by
  rcases List.eq_nil_or_concat (entries c) with h | ⟨rest, t, h⟩
  · exact Or.inl h
  · exact Or.inr ⟨rest, t, by simpa using h⟩

/-- The fields of the cache after `RemoveOldest` has removed the entry `t`. -/
theorem RemoveOldest_fields {c : Cache} {rest : List entry} {t : entry}
    (h : entries c = rest ++ [t]) :
    (RemoveOldest c).nBytes = c.nBytes - entrySize t ∧
    (RemoveOldest c).maxBytes = c.maxBytes ∧
    (RemoveOldest c).OnEvicted = c.OnEvicted ∧
    (RemoveOldest c).calls = if c.OnEvicted then c.calls ++ [(t.key, t.value)] else c.calls := by
  obtain ⟨a, hb, ha⟩ := back_of_entries h
  rw [RemoveOldest_back c a hb, ha]
  exact ⟨rfl, rfl, rfl, rfl⟩

/-- What the eviction loop does: it removes the entries `gone` from the tail of
the list, calls `OnEvicted` for each of them, the last one first, and stops in a
state that is within the budget. -/
theorem evictLoop_spec {fuel : Nat} {c c' : Cache} (wf : WF c)
    (h : evictLoop fuel c = some c') :
    ∃ gone, entries c = entries c' ++ gone ∧
      c'.calls = (if c.OnEvicted then
        c.calls ++ gone.reverse.map (fun e => (e.key, e.value)) else c.calls) ∧
      c'.nBytes = c.nBytes - (gone.map entrySize).sum ∧
      c'.maxBytes = c.maxBytes ∧ c'.OnEvicted = c.OnEvicted ∧ ¬ overBudget c' := by
  induction fuel generalizing c with
  | zero => simp [evictLoop] at h
  | succ f ih =>
    rw [evictLoop_succ] at h
    split at h
    · rcases entries_cases c with he | ⟨rest, t, he⟩
      · rw [RemoveOldest_empty c (entries_eq_nil he)] at h
        exact ih wf h
      · obtain ⟨gone, h1, h2, h3, h4, h5, h6⟩ := ih (WF_RemoveOldest wf) h
        obtain ⟨f1, f2, f3, f4⟩ := RemoveOldest_fields he
        have hent := entries_RemoveOldest wf
        rw [he, List.dropLast_concat] at hent
        refine ⟨gone ++ [t], ?_, ?_, ?_, ?_, ?_, h6⟩
        · rw [he, ← List.append_assoc, ← h1, hent]
        · rw [h2, f3, f4]
          cases c.OnEvicted <;> simp
        · rw [h3, f1]
          simp
          ring
        · rw [h4, f2]
        · rw [h5, f3]
    · next hcond =>
      cases h
      exact ⟨[], by simp, by split <;> simp, by simp, rfl, rfl, hcond⟩

/-! ## The stored values -/

theorem entryAt_mem_entries {c : Cache} {a : Nat} (h : a ∈ c.ll) : entryAt c a ∈ entries c :=
  List.mem_map_of_mem (entryAt c) h

theorem WF.entry_ext {c : Cache} (wf : WF c) {x y : entry} (hx : x ∈ entries c)
    (hy : y ∈ entries c) (h : x.key = y.key) : x = y :=
  List.inj_on_of_nodup_map wf.keys_nodup hx hy h

theorem WF.entries_nodup {c : Cache} (wf : WF c) : (entries c).Nodup :=
  List.Nodup.of_map entry.key wf.keys_nodup

/-- Every entry stored after a call was stored before it, unless the call is the
`Add` that stored it. -/
theorem step_entries {fuel : Nat} {c c' : Cache} {op : Op} (wf : WF c)
    (hs : step fuel c op = some c') :
    ∀ e ∈ entries c', addedValue e.key op = some e.value ∨
      (addedValue e.key op = none ∧ e ∈ entries c) := by
  intro e he
  cases op with
  | get k =>
    simp only [step, Option.some.injEq] at hs
    subst hs
    refine Or.inr ⟨rfl, ?_⟩
    cases hk : mapGet c.cache k with
    | none => simpa [Get, hk] using he
    | some a =>
      rw [entries_Get_hit wf hk, List.mem_cons] at he
      rcases he with rfl | he
      · exact entryAt_mem_entries ((wf.index k a).mp hk).1
      · exact (List.mem_filter.mp he).1
  | add k v =>
    cases hk : mapGet c.cache k with
    | some a =>
      rw [entries_Add_present wf hk hs, List.mem_cons] at he
      rcases he with rfl | he
      · exact Or.inl (by simp [addedValue])
      · have hne : e.key ≠ k := by simpa using (List.mem_filter.mp he).2
        exact Or.inr ⟨by simp [addedValue, Ne.symm hne], (List.mem_filter.mp he).1⟩
    | none =>
      rw [step, Add_absent fuel c k v hk] at hs
      obtain ⟨gone, h1, _⟩ := evictLoop_spec (WF_pushEntry wf v hk) hs
      have he2 : e ∈ entries (pushEntry c k v) := by rw [h1]; exact List.mem_append_left _ he
      rw [entries_pushEntry wf k v, List.mem_cons] at he2
      rcases he2 with rfl | he2
      · exact Or.inl (by simp [addedValue])
      · have hne : e.key ≠ k := by
          intro e1
          exact (wf.absent_iff k).mp hk (e1 ▸ List.mem_map_of_mem entry.key he2)
        exact Or.inr ⟨by simp [addedValue, Ne.symm hne], he2⟩
  | removeOldest =>
    simp only [step, Option.some.injEq] at hs
    subst hs
    rw [entries_RemoveOldest wf] at he
    exact Or.inr ⟨rfl, List.dropLast_subset _ he⟩
  | len =>
    simp only [step, Option.some.injEq] at hs
    subst hs
    exact Or.inr ⟨rfl, he⟩

/-- The value stored for a key is the value of the last `Add` of that key. -/
theorem stored_is_lastAdded (m : Int) (cb : Bool) (fuel : Nat) (ops : List Op) :
    ∀ c, exec fuel (New m cb) ops = some c →
      ∀ e ∈ entries c, lastAdded ops e.key = some e.value := by
  induction ops using List.reverseRecOn with
  | nil =>
    intro c h e he
    simp only [exec, Option.some.injEq] at h
    subst h
    simp [entries, New] at he
  | append_singleton ops op ih =>
    intro c h e he
    rw [exec_append] at h
    cases h1 : exec fuel (New m cb) ops with
    | none => simp [h1] at h
    | some c1 =>
      rw [h1, Option.some_bind] at h
      have wf1 : WF c1 := WF_exec (WF_New m cb) h1
      rw [lastAdded_append]
      rcases step_entries wf1 h e he with h2 | ⟨h2, h3⟩
      · rw [h2]; rfl
      · rw [h2, ih c1 h1 e h3]; rfl

theorem Get_hit_perm {c : Cache} (wf : WF c) {k : String} {a : Nat}
    (h : mapGet c.cache k = some a) : (entries (Get c k).2).Perm (entries c) := by
  have ha := (wf.index k a).mp h
  apply (List.perm_ext_iff_of_nodup (WF_Get wf k).entries_nodup wf.entries_nodup).mpr
  intro x
  rw [entries_Get_hit wf h, List.mem_cons, List.mem_filter]
  constructor
  · rintro (rfl | ⟨hx, _⟩)
    · exact entryAt_mem_entries ha.1
    · exact hx
  · intro hx
    by_cases hk : x.key = k
    · exact Or.inl (wf.entry_ext hx (entryAt_mem_entries ha.1) (hk.trans ha.2.symm))
    · exact Or.inr ⟨hx, by simpa using hk⟩

/-- Claim C6: in a state reached by the calls `ops`, `Get` of a stored key `k`
returns `(v, true)` for the value `v` of the last `Add` of `k`.  Afterwards `k` is at
the head of the list and the other entries follow in their former order; the
stored pairs, `Len()`, `nBytes`, `maxBytes` and the map are unchanged, and `OnEvicted`
is not called. -/
theorem Get_hit_moves_to_front (m : Int) (cb : Bool) (fuel : Nat) (ops : List Op) (c : Cache)
    (k : String) (h : exec fuel (New m cb) ops = some c) (hk : k ∈ keys c) :
    ∃ v, lastAdded ops k = some v ∧ (Get c k).1 = some v ∧
      entries (Get c k).2 = ⟨k, v⟩ :: (entries c).filter (fun e => decide (e.key ≠ k)) ∧
      (entries (Get c k).2).Perm (entries c) ∧
      Len (Get c k).2 = Len c ∧ (Get c k).2.nBytes = c.nBytes ∧
      (Get c k).2.maxBytes = c.maxBytes ∧ (Get c k).2.cache = c.cache ∧
      (Get c k).2.calls = c.calls := by
  have wf : WF c := WF_exec (WF_New m cb) h
  obtain ⟨a, ha⟩ := (wf.mem_keys_iff k).mp hk
  have hi := (wf.index k a).mp ha
  have hlast := stored_is_lastAdded m cb fuel ops c h _ (entryAt_mem_entries hi.1)
  rw [hi.2] at hlast
  have hent := entries_Get_hit wf ha
  have hperm := Get_hit_perm wf ha
  have hlen : Len (Get c k).2 = Len c := by
    have := hperm.length_eq
    simp only [entries, List.length_map] at this
    simp [Len, this]
  have he : entryAt c a = ⟨k, (entryAt c a).value⟩ := by
    cases hea : entryAt c a with
    | mk k1 v1 =>
      have : k1 = k := by simpa [hea] using hi.2
      simp [this]
  refine ⟨(entryAt c a).value, hlast, ?_, ?_, hperm, hlen, ?_, ?_, ?_, ?_⟩
  · simp [Get, ha]
  · rw [hent]; congr 1
  · simp [Get, ha]
  · simp [Get, ha]
  · simp [Get, ha]
  · simp [Get, ha]

theorem Get_hit_moves_to_front_witness :
    exec 1 (New 20 true) sampleOps = some sampleCache ∧ "b" ∈ keys sampleCache ∧
    ∃ v, lastAdded sampleOps "b" = some v ∧ (Get sampleCache "b").1 = some v ∧
      entries (Get sampleCache "b").2 =
        ⟨"b", v⟩ :: (entries sampleCache).filter (fun e => decide (e.key ≠ "b")) ∧
      (entries (Get sampleCache "b").2).Perm (entries sampleCache) ∧
      Len (Get sampleCache "b").2 = Len sampleCache ∧
      (Get sampleCache "b").2.nBytes = sampleCache.nBytes ∧
      (Get sampleCache "b").2.maxBytes = sampleCache.maxBytes ∧
      (Get sampleCache "b").2.cache = sampleCache.cache ∧
      (Get sampleCache "b").2.calls = sampleCache.calls :=
  ⟨by decide, by decide,
    Get_hit_moves_to_front 20 true 1 sampleOps sampleCache "b" (by decide) (by decide)⟩

/-! ## `Add` on a stored key -/

theorem evictLoop_done (fuel : Nat) (c : Cache) (h : ¬ overBudget c) :
    evictLoop (fuel + 1) c = some c := by
  rw [evictLoop_succ, if_neg h]

/-- Claim C8, the example as stated: on `New(1, nil)` the calls `Add("k", v1)`,
`Add("k", v2)` with `v1.Len() = v2.Len() = 5` leave the cache empty, because each
`Add` inserts an entry of size 6 and its eviction loop removes it again: then
`Len()` is 0 and `Get("k")` misses. -/
theorem overwrite_example_fails_over_budget :
    (exec 2 (New 1 false) [.add "k" ⟨1, 5⟩, .add "k" ⟨2, 5⟩]).map
      (fun c => (Len c, (Get c "k").1)) = some (0, none) := by
  decide

/-- Claim C8, amended: in a reachable state `Add` of a stored key `k` returns (with
any fuel, there is no loop on this path); it leaves `Len()` and the set of keys
unchanged, puts `(k, v2)` at the head of the list with the other entries in their
former order, a following `Get(k)` returns `(v2, true)`, and `OnEvicted` is not
called.  In particular, on a new cache into which `(k, v1)` fits (`maxBytes = 0` or
`len(k) + v1.Len() <= maxBytes`), `Add(k, v1)`, `Add(k, v2)` give `Len() = 1` and
`Get(k) = (v2, true)`. -/
theorem Add_overwrite_keeps_identity :
    (∀ (c : Cache) (k : String) (v2 : Value) (fuel : Nat), Reachable c → k ∈ keys c →
      ∃ c', Add fuel c k v2 = some c' ∧ Len c' = Len c ∧
        (∀ k', k' ∈ keys c' ↔ k' ∈ keys c) ∧ (Get c' k).1 = some v2 ∧
        entries c' = ⟨k, v2⟩ :: (entries c).filter (fun e => decide (e.key ≠ k)) ∧
        c'.calls = c.calls) ∧
    (∀ (m : Int) (cb : Bool) (fuel : Nat) (k : String) (v1 v2 : Value), 1 ≤ fuel →
      (m = 0 ∨ keyLen k + v1.Len ≤ m) →
      ∃ c, exec fuel (New m cb) [.add k v1, .add k v2] = some c ∧ Len c = 1 ∧
        (Get c k).1 = some v2 ∧ c.calls = []) := by
  constructor
  · intro c k v2 fuel hr hk
    have wf := hr.wf
    obtain ⟨a, ha⟩ := (wf.mem_keys_iff k).mp hk
    have hi := (wf.index k a).mp ha
    have hlt := wf.alloc a hi.1
    have hadd := Add_present fuel c k v2 a ha
    refine ⟨_, hadd, ?_, ?_, ?_, entries_Add_present wf ha hadd, rfl⟩
    · have := (MoveToFront_perm c.ll a).length_eq
      simp [Len, this]
    · intro k'
      simp only [keys, entries_Add_present wf ha hadd, List.map_cons, List.mem_cons,
        List.mem_map, List.mem_filter]
      constructor
      · rintro (rfl | ⟨e, ⟨he, _⟩, rfl⟩)
        · simpa [keys] using hk
        · exact ⟨e, he, rfl⟩
      · rintro ⟨e, he, rfl⟩
        by_cases hek : e.key = k
        · exact Or.inl hek
        · exact Or.inr ⟨e, ⟨he, by simpa using hek⟩, rfl⟩
    · simp only [Get, ha]
      rw [entryAt_set c _ a a _ rfl hlt, if_pos rfl]
  · intro m cb fuel k v1 v2 hf hfit
    obtain ⟨f, rfl⟩ : ∃ f, fuel = f + 1 := ⟨fuel - 1, by omega⟩
    have hnot : ¬ overBudget (pushEntry (New m cb) k v1) := by
      simp only [overBudget, pushEntry, New, zero_add]
      rintro ⟨h0, hlt⟩
      rcases hfit with h | h
      · exact h0 h
      · exact absurd hlt (not_lt.mpr h)
    have e1 : Add (f + 1) (New m cb) k v1 = some (pushEntry (New m cb) k v1) := by
      rw [Add_absent _ _ _ _ (by simp [New, mapGet]), evictLoop_done _ _ hnot]
    simp only [exec, step, e1, Option.some_bind]
    simp [Add, pushEntry, New, mapGet, mapSet, mapDelete, MoveToFront, entryAt, Get, Len]

theorem Add_overwrite_keeps_identity_witness :
    (Reachable sampleCache ∧ "b" ∈ keys sampleCache ∧
      ∃ c', Add 0 sampleCache "b" ⟨7, 9⟩ = some c' ∧ Len c' = Len sampleCache ∧
        (∀ k', k' ∈ keys c' ↔ k' ∈ keys sampleCache) ∧ (Get c' "b").1 = some ⟨7, 9⟩ ∧
        entries c' =
          ⟨"b", ⟨7, 9⟩⟩ :: (entries sampleCache).filter (fun e => decide (e.key ≠ "b")) ∧
        c'.calls = sampleCache.calls) ∧
    ((10 : Int) = 0 ∨ keyLen "k" + (5 : Int) ≤ 10) ∧
    ∃ c, exec 1 (New 10 true) [.add "k" ⟨1, 5⟩, .add "k" ⟨2, 7⟩] = some c ∧ Len c = 1 ∧
      (Get c "k").1 = some ⟨2, 7⟩ ∧ c.calls = [] :=
  ⟨⟨sampleCache_reachable, by decide,
      Add_overwrite_keeps_identity.1 sampleCache "b" ⟨7, 9⟩ 0 sampleCache_reachable
        (by decide)⟩,
    by decide,
    Add_overwrite_keeps_identity.2 10 true 1 "k" ⟨1, 5⟩ ⟨2, 7⟩ (by decide) (by decide)⟩

/-! ## The calls of `OnEvicted` -/

theorem removed_filter (stored kept gone : List entry) (ks : List String)
    (h : stored = kept ++ gone) (hk : ∀ e ∈ kept, e.key ∈ ks) (hg : ∀ e ∈ gone, e.key ∉ ks) :
    stored.reverse.filter (fun e => decide (e.key ∉ ks)) = gone.reverse := by
  subst h
  rw [List.reverse_append, List.filter_append]
  have h1 : List.filter (fun e => decide (e.key ∉ ks)) gone.reverse = gone.reverse := by
    apply List.filter_eq_self.mpr
    intro e he
    simpa using hg e (List.mem_reverse.mp he)
  have h2 : List.filter (fun e => decide (e.key ∉ ks)) kept.reverse = [] := by
    apply List.filter_eq_nil_iff.mpr
    intro e he
    simpa using hk e (List.mem_reverse.mp he)
  rw [h1, h2, List.append_nil]

theorem removedBy_eq (c c' : Cache) (op : Op) (kept gone : List entry)
    (h : storedDuring c op = kept ++ gone) (hk : ∀ e ∈ kept, e.key ∈ keys c')
    (hg : ∀ e ∈ gone, e.key ∉ keys c') :
    removedBy c op c' = gone.reverse.map (fun e => (e.key, e.value)) := by
  unfold removedBy
  rw [removed_filter _ kept gone _ h hk hg]

theorem keys_disjoint_of_append {c : Cache} (wf : WF c) {kept gone : List entry}
    (h : entries c = kept ++ gone) : ∀ e ∈ gone, e.key ∉ kept.map entry.key := by
  have hn := wf.keys_nodup
  rw [h, List.map_append] at hn
  intro e he hmem
  exact (List.nodup_append.mp hn).2.2 hmem (List.mem_map_of_mem entry.key he)

/-- One call: the calls of `OnEvicted` that it makes are the entries it removes. -/
theorem calls_step {fuel : Nat} {c c' : Cache} {op : Op} (wf : WF c)
    (hcb : c.OnEvicted = true) (hs : step fuel c op = some c') :
    c'.calls = c.calls ++ removedBy c op c' ∧ c'.OnEvicted = true := by
  cases op with
  | get k =>
    simp only [step, Option.some.injEq] at hs
    subst hs
    have hmem : ∀ e ∈ entries c, e.key ∈ keys (Get c k).2 := by
      intro e he
      cases hk : mapGet c.cache k with
      | none => simpa [Get, hk, keys] using List.mem_map_of_mem entry.key he
      | some a =>
        exact List.mem_map_of_mem entry.key ((Get_hit_perm wf hk).mem_iff.mpr he)
    rw [removedBy_eq c _ (.get k) (entries c) [] (by simp [storedDuring]) hmem (by simp)]
    cases hk : mapGet c.cache k <;> simp [Get, hk, hcb]
  | add k v =>
    cases hk : mapGet c.cache k with
    | some a =>
      have hent := entries_Add_present wf hk hs
      rw [removedBy_eq c c' (.add k v) (entries c') [] (by simp [storedDuring, hent])
        (fun e he => List.mem_map_of_mem entry.key he) (by simp)]
      rw [step, Add_present fuel c k v a hk] at hs
      have hs := Option.some.inj hs
      subst hs
      simp [hcb]
    | none =>
      rw [step, Add_absent fuel c k v hk] at hs
      have wf1 := WF_pushEntry wf v hk
      obtain ⟨gone, h1, h2, _, _, h5, _⟩ := evictLoop_spec wf1 hs
      have hst : storedDuring c (.add k v) = entries c' ++ gone := by
        rw [← h1, entries_pushEntry wf k v]
        simp only [storedDuring]
        rw [filter_absent _ k ((wf.absent_iff k).mp hk)]
      rw [removedBy_eq c c' (.add k v) (entries c') gone hst
        (fun e he => List.mem_map_of_mem entry.key he) (keys_disjoint_of_append wf1 h1)]
      have hcb1 : (pushEntry c k v).OnEvicted = true := hcb
      rw [hcb1] at h2 h5
      exact ⟨by simpa using h2, h5⟩
  | removeOldest =>
    simp only [step, Option.some.injEq] at hs
    subst hs
    rcases entries_cases c with he | ⟨rest, t, he⟩
    · rw [RemoveOldest_empty c (entries_eq_nil he)]
      rw [removedBy_eq c c .removeOldest [] [] (by simp [storedDuring, he]) (by simp) (by simp)]
      simp [hcb]
    · have hent := entries_RemoveOldest wf
      rw [he, List.dropLast_concat] at hent
      obtain ⟨_, _, f3, f4⟩ := RemoveOldest_fields he
      have hg : ∀ e ∈ [t], e.key ∉ keys (RemoveOldest c) := by
        have := keys_disjoint_of_append wf he
        simpa [keys, hent] using this
      rw [removedBy_eq c _ .removeOldest rest [t] (by simp [storedDuring, he])
        (fun e h => by simpa [keys, hent] using List.mem_map_of_mem entry.key h) hg]
      rw [f3, f4, hcb]
      simp
  | len =>
    simp only [step, Option.some.injEq] at hs
    subst hs
    rw [removedBy_eq c c .len (entries c) [] (by simp [storedDuring])
      (fun e he => List.mem_map_of_mem entry.key he) (by simp)]
    simp [hcb]

theorem calls_exec {fuel : Nat} {ops : List Op} {c c' : Cache} (wf : WF c)
    (hcb : c.OnEvicted = true) (h : exec fuel c ops = some c') :
    c'.calls = c.calls ++ removedAlong fuel c ops := by
  induction ops generalizing c with
  | nil =>
    simp only [exec, Option.some.injEq] at h
    subst h
    simp [removedAlong]
  | cons op ops ih =>
    simp only [exec] at h
    cases hs : step fuel c op with
    | none => simp [hs] at h
    | some c1 =>
      rw [hs, Option.some_bind] at h
      obtain ⟨h1, h2⟩ := calls_step wf hcb hs
      rw [ih (WF_step wf hs) h2 h, h1]
      simp [removedAlong, hs]

/-- Claim C10: on a cache with a callback, after every sequence of calls the
record of the calls of `OnEvicted` is the list of the entries removed from the
cache, in the order of their removal, each with the key and the value that were
stored when it was removed.  An `Add` of a stored key makes no call, and neither
does an `Add` of a new key that leaves `nBytes` within the budget. -/
theorem OnEvicted_called_once_per_removal :
    (∀ (m : Int) (fuel : Nat) (ops : List Op) (c : Cache),
      exec fuel (New m true) ops = some c →
        c.calls = removedAlong fuel (New m true) ops) ∧
    (∀ (c : Cache) (k : String) (v : Value) (fuel : Nat), Reachable c → k ∈ keys c →
      ∃ c', Add fuel c k v = some c' ∧ c'.calls = c.calls) ∧
    (∀ (c : Cache) (k : String) (v : Value) (fuel : Nat), Reachable c → k ∉ keys c →
      (c.maxBytes = 0 ∨ c.nBytes + (keyLen k + v.Len) ≤ c.maxBytes) → 1 ≤ fuel →
      ∃ c', Add fuel c k v = some c' ∧ c'.calls = c.calls ∧
        entries c' = ⟨k, v⟩ :: entries c) := by
  refine ⟨?_, ?_, ?_⟩
  · intro m fuel ops c h
    have := calls_exec (WF_New m true) rfl h
    simpa [New] using this
  · intro c k v fuel hr hk
    obtain ⟨a, ha⟩ := (hr.wf.mem_keys_iff k).mp hk
    exact ⟨_, Add_present fuel c k v a ha, rfl⟩
  · intro c k v fuel hr hk hfit hf
    have wf := hr.wf
    have hnone := (wf.absent_iff k).mpr hk
    have hnot : ¬ overBudget (pushEntry c k v) := by
      simp only [overBudget, pushEntry]
      rintro ⟨h0, hlt⟩
      rcases hfit with h1 | h1
      · exact h0 h1
      · exact absurd hlt (not_lt.mpr h1)
    obtain ⟨f, rfl⟩ : ∃ f, fuel = f + 1 := ⟨fuel - 1, by omega⟩
    refine ⟨pushEntry c k v, ?_, rfl, entries_pushEntry wf k v⟩
    rw [Add_absent _ c k v hnone, evictLoop_done f _ hnot]

theorem OnEvicted_called_once_per_removal_witness :
    (exec 2 (New 15 true) evictOps = some evictedCache ∧
      evictedCache.calls = removedAlong 2 (New 15 true) evictOps ∧
      evictedCache.calls = [("b", ⟨2, 5⟩)]) ∧
    (Reachable sampleCache ∧ "b" ∈ keys sampleCache ∧
      ∃ c', Add 0 sampleCache "b" ⟨7, 9⟩ = some c' ∧ c'.calls = sampleCache.calls) ∧
    ("z" ∉ keys sampleCache ∧
      (sampleCache.maxBytes = 0 ∨
        sampleCache.nBytes + (keyLen "z" + (1 : Int)) ≤ sampleCache.maxBytes) ∧
      ∃ c', Add 1 sampleCache "z" ⟨9, 1⟩ = some c' ∧ c'.calls = sampleCache.calls ∧
        entries c' = ⟨"z", ⟨9, 1⟩⟩ :: entries sampleCache) :=
  ⟨⟨by decide,
      OnEvicted_called_once_per_removal.1 15 2 evictOps evictedCache (by decide), rfl⟩,
    ⟨sampleCache_reachable, by decide,
      OnEvicted_called_once_per_removal.2.1 sampleCache "b" ⟨7, 9⟩ 0 sampleCache_reachable
        (by decide)⟩,
    ⟨by decide, by decide,
      OnEvicted_called_once_per_removal.2.2 sampleCache "z" ⟨9, 1⟩ 1 sampleCache_reachable
        (by decide) (by decide) (by decide)⟩⟩

/-! ## More fuel gives the same result -/

theorem evictLoop_mono {f f' : Nat} {c c' : Cache} (h : evictLoop f c = some c')
    (hle : f ≤ f') : evictLoop f' c = some c' := by
  induction f generalizing c f' with
  | zero => simp [evictLoop] at h
  | succ n ih =>
    obtain ⟨g, rfl⟩ : ∃ g, f' = g + 1 := ⟨f' - 1, by omega⟩
    rw [evictLoop_succ] at h ⊢
    split
    · next hc =>
      rw [if_pos hc] at h
      exact ih h (by omega)
    · next hc =>
      rw [if_neg hc] at h
      exact h

theorem Add_mono {f f' : Nat} {c c' : Cache} {k : String} {v : Value}
    (h : Add f c k v = some c') (hle : f ≤ f') : Add f' c k v = some c' := by
  cases hk : mapGet c.cache k with
  | some a =>
    rw [Add_present f c k v a hk] at h
    rw [Add_present f' c k v a hk]
    exact h
  | none =>
    rw [Add_absent f c k v hk] at h
    rw [Add_absent f' c k v hk]
    exact evictLoop_mono h hle

theorem step_mono {f f' : Nat} {c c' : Cache} {op : Op}
    (h : step f c op = some c') (hle : f ≤ f') : step f' c op = some c' := by
  cases op with
  | add k v => exact Add_mono h hle
  | get k => exact h
  | removeOldest => exact h
  | len => exact h

theorem exec_mono {f f' : Nat} {ops : List Op} {c c' : Cache}
    (h : exec f c ops = some c') (hle : f ≤ f') : exec f' c ops = some c' := by
  induction ops generalizing c with
  | nil => exact h
  | cons op ops ih =>
    simp only [exec] at h ⊢
    cases hs : step f c op with
    | none => simp [hs] at h
    | some c1 =>
      rw [hs, Option.some_bind] at h
      rw [step_mono hs hle, Option.some_bind]
      exact ih h

/-! ## The eviction loop -/

theorem usedBytes_eq (c : Cache) : usedBytes c = ((entries c).map entrySize).sum := rfl

theorem keyLen_nonneg (k : String) : 0 ≤ keyLen k := by
  unfold keyLen
  exact Int.ofNat_nonneg _

/-- The loop stops after a number of calls of `RemoveOldest` that is smaller than
the fuel, and that number of calls plus one is fuel enough. -/
theorem evictLoop_rounds {fuel : Nat} {c c' : Cache} (h : evictLoop fuel c = some c') :
    ∃ j, j < fuel ∧ c' = RemoveOldest^[j] c ∧ evictLoop (j + 1) c = some c' := by
  induction fuel generalizing c with
  | zero => simp [evictLoop] at h
  | succ f ih =>
    rw [evictLoop_succ] at h
    split at h
    · next hc =>
      obtain ⟨j, hj, h1, h2⟩ := ih h
      refine ⟨j + 1, by omega, ?_, ?_⟩
      · rw [Function.iterate_succ_apply]; exact h1
      · rw [evictLoop_succ, if_pos hc]; exact h2
    · next hc =>
      cases h
      exact ⟨0, by omega, rfl, by rw [evictLoop_succ, if_neg hc]⟩

/-- While the loop runs the cache is over its budget: if the loop removes the
entries `g1 ++ g2` and `g1` is not empty, then after the removal of `g2` alone
`nBytes` is still above `maxBytes`. -/
theorem evictLoop_over {fuel : Nat} {c c' : Cache} (wf : WF c)
    (h : evictLoop fuel c = some c') :
    ∀ gone g1 g2, entries c = entries c' ++ gone → gone = g1 ++ g2 → g1 ≠ [] →
      c.maxBytes ≠ 0 ∧ c.maxBytes < c.nBytes - (g2.map entrySize).sum := by
  induction fuel generalizing c with
  | zero => simp [evictLoop] at h
  | succ f ih =>
    rw [evictLoop_succ] at h
    split at h
    · next hc =>
      rcases entries_cases c with he | ⟨rest, t, he⟩
      · rw [RemoveOldest_empty c (entries_eq_nil he)] at h
        exact ih wf h
      · intro gone g1 g2 hgone hsplit hne
        have hent := entries_RemoveOldest wf
        rw [he, List.dropLast_concat] at hent
        obtain ⟨f1, f2, _, _⟩ := RemoveOldest_fields he
        obtain ⟨gone1, hg1, _⟩ := evictLoop_spec (WF_RemoveOldest wf) h
        rw [hent] at hg1
        have hgone2 : gone = gone1 ++ [t] := by
          have : entries c' ++ gone = entries c' ++ (gone1 ++ [t]) := by
            rw [← hgone, he, hg1, List.append_assoc]
          exact List.append_cancel_left this
        rcases List.eq_nil_or_concat g2 with h2 | ⟨g2', t', h2⟩
        · subst h2
          simpa [overBudget] using hc
        · have h2 : g2 = g2' ++ [t'] := by simpa using h2
          subst h2
          have hsp : gone1 ++ [t] = (g1 ++ g2') ++ [t'] := by
            rw [← hgone2, hsplit, List.append_assoc]
          have htt : t = t' := by
            have := congrArg List.getLast? hsp
            simpa using this
          subst htt
          have hg : gone1 = g1 ++ g2' := List.append_cancel_right hsp
          have := ih (WF_RemoveOldest wf) h gone1 g1 g2' (by rw [hent, hg1]) hg hne
          rw [f1, f2] at this
          refine ⟨this.1, ?_⟩
          have h3 := this.2
          simp only [List.map_append, List.sum_append, List.map_cons, List.map_nil,
            List.sum_cons, List.sum_nil]
          linarith
    · intro gone g1 g2 hgone hsplit hne
      cases h
      have : gone = [] := by
        have h1 : entries c' ++ [] = entries c' ++ gone := by simpa using hgone
        exact (List.append_cancel_left h1).symm
      rw [this] at hsplit
      have : g1 = [] := (List.append_eq_nil.mp hsplit.symm).1
      exact absurd this hne

/-- With a true `nBytes`, sizes that are not negative and a budget that is not
negative, the loop ends within as many rounds as there are entries. -/
theorem evictLoop_terminates (n : Nat) {c : Cache} (wf : WF c) (hlen : (entries c).length = n)
    (hacc : c.nBytes = usedBytes c) (hm : 0 ≤ c.maxBytes)
    (hpos : ∀ e ∈ entries c, 0 ≤ e.value.Len) :
    ∃ c', evictLoop (n + 1) c = some c' := by
  induction n generalizing c with
  | zero =>
    have he : entries c = [] := List.length_eq_zero.mp hlen
    refine ⟨c, evictLoop_done 0 c ?_⟩
    rintro ⟨_, hlt⟩
    rw [hacc, usedBytes_eq, he] at hlt
    simp at hlt
    omega
  | succ n ih =>
    by_cases hc : overBudget c
    · rcases entries_cases c with he | ⟨rest, t, he⟩
      · rw [he] at hlen; simp at hlen
      · have hent := entries_RemoveOldest wf
        rw [he, List.dropLast_concat] at hent
        obtain ⟨f1, f2, _, _⟩ := RemoveOldest_fields he
        have hlen1 : (entries (RemoveOldest c)).length = n := by
          rw [hent]
          rw [he] at hlen
          simpa using hlen
        have hacc1 : (RemoveOldest c).nBytes = usedBytes (RemoveOldest c) := by
          rw [f1, hacc, usedBytes_eq, usedBytes_eq, hent, he]
          simp
        have hpos1 : ∀ e ∈ entries (RemoveOldest c), 0 ≤ e.value.Len := by
          intro e hmem
          rw [hent] at hmem
          exact hpos e (by rw [he]; exact List.mem_append_left _ hmem)
        obtain ⟨c', h⟩ := ih (WF_RemoveOldest wf) hlen1 hacc1 (by rw [f2]; exact hm) hpos1
        exact ⟨c', by rw [evictLoop_succ, if_pos hc]; exact h⟩
    · exact ⟨c, evictLoop_done _ c hc⟩

/-- An empty cache that is over its budget stays so: the loop does not end. -/
theorem evictLoop_stuck {c : Cache} (he : c.ll = []) (hc : overBudget c) :
    ∀ fuel, evictLoop fuel c = none := by
  intro fuel
  induction fuel with
  | zero => rfl
  | succ f ih => rw [evictLoop_succ, if_pos hc, RemoveOldest_empty c he]; exact ih

theorem evictLoop_none_of_next {c : Cache} (hc : overBudget c)
    (h : ∀ fuel, evictLoop fuel (RemoveOldest c) = none) : ∀ fuel, evictLoop fuel c = none := by
  intro fuel
  cases fuel with
  | zero => rfl
  | succ f => rw [evictLoop_succ, if_pos hc]; exact h f

/-! ## `Add` of a key that is not stored -/

theorem usedBytes_pushEntry {c : Cache} (wf : WF c) (k : String) (v : Value) :
    usedBytes (pushEntry c k v) = usedBytes c + (keyLen k + v.Len) := by
  rw [usedBytes_eq, usedBytes_eq, entries_pushEntry wf k v]
  simp [entrySize]
  ring

/-- The cache that `Add` of a new key returns, for every fuel for which it returns:
the loop has removed the entries `gone` from the tail of the list that starts with
the new entry. -/
theorem Add_absent_spec {fuel : Nat} {c c' : Cache} {k : String} {v : Value} (wf : WF c)
    (hk : k ∉ keys c) (h : Add fuel c k v = some c') :
    ∃ gone, ⟨k, v⟩ :: entries c = entries c' ++ gone ∧
      c'.nBytes = c.nBytes + (keyLen k + v.Len) - (gone.map entrySize).sum ∧
      usedBytes c' = usedBytes c + (keyLen k + v.Len) - (gone.map entrySize).sum ∧
      c'.calls = (if c.OnEvicted then
        c.calls ++ gone.reverse.map (fun e => (e.key, e.value)) else c.calls) ∧
      c'.maxBytes = c.maxBytes ∧ ¬ overBudget c' ∧
      (∀ g1 g2, gone = g1 ++ g2 → g1 ≠ [] →
        c.maxBytes ≠ 0 ∧
          c.maxBytes < c.nBytes + (keyLen k + v.Len) - (g2.map entrySize).sum) := by
  have hnone := (wf.absent_iff k).mpr hk
  rw [Add_absent fuel c k v hnone] at h
  have wf1 := WF_pushEntry wf v hnone
  obtain ⟨gone, h1, h2, h3, h4, _, h6⟩ := evictLoop_spec wf1 h
  have hover := evictLoop_over wf1 h gone
  rw [entries_pushEntry wf k v] at h1
  refine ⟨gone, h1, h3, ?_, h2, h4, h6, ?_⟩
  · have e1 := usedBytes_pushEntry wf k v
    have e2 : usedBytes (pushEntry c k v) = usedBytes c' + (gone.map entrySize).sum := by
      rw [usedBytes_eq, usedBytes_eq, entries_pushEntry wf k v, h1]
      simp
    linarith
  · intro g1 g2 hs hne
    exact hover g1 g2 (by rw [entries_pushEntry wf k v]; exact h1) hs hne

/-- With a true `nBytes`, sizes that are not negative and a budget that is not
negative, `Add` of a new key returns when its loop may test its condition
`Len() + 2` times. -/
theorem Add_absent_returns {c : Cache} {k : String} {v : Value} (wf : WF c)
    (hk : k ∉ keys c) (hacc : c.nBytes = usedBytes c) (hm : 0 ≤ c.maxBytes)
    (hpos : ∀ e ∈ entries c, 0 ≤ e.value.Len) (hv : 0 ≤ v.Len) :
    ∃ c', Add (c.ll.length + 2) c k v = some c' := by
  have hnone := (wf.absent_iff k).mpr hk
  have wf1 := WF_pushEntry wf v hnone
  rw [Add_absent _ c k v hnone]
  apply evictLoop_terminates (c.ll.length + 1) wf1
  · rw [entries_pushEntry wf k v]; simp [entries]
  · rw [usedBytes_pushEntry wf k v, ← hacc]; rfl
  · exact hm
  · intro e he
    rw [entries_pushEntry wf k v, List.mem_cons] at he
    rcases he with rfl | he
    · exact hv
    · exact hpos e he

/-- Claim C18: for a budget that is not negative, sizes that are not negative and
a true `nBytes`, `Add` of a new key returns after `j` calls of `RemoveOldest` with
`j <= Len() + 1` (`j + 1` tests of the loop condition are enough), and on return
`nBytes <= maxBytes` or `maxBytes == 0`. -/
theorem Add_returns_within_len_rounds (c : Cache) (k : String) (v : Value) (wf : WF c)
    (hacc : c.nBytes = usedBytes c) (hm : 0 ≤ c.maxBytes)
    (hpos : ∀ e ∈ entries c, 0 ≤ e.value.Len) (hv : 0 ≤ v.Len) (hk : k ∉ keys c) :
    ∃ j c', j ≤ c.ll.length + 1 ∧ c' = RemoveOldest^[j] (pushEntry c k v) ∧
      (∀ fuel, j + 1 ≤ fuel → Add fuel c k v = some c') ∧
      (c'.nBytes ≤ c'.maxBytes ∨ c'.maxBytes = 0) := by
  obtain ⟨c', h⟩ := Add_absent_returns wf hk hacc hm hpos hv
  have hnone := (wf.absent_iff k).mpr hk
  have h0 := h
  rw [Add_absent _ c k v hnone] at h0
  obtain ⟨j, hj, h1, h2⟩ := evictLoop_rounds h0
  obtain ⟨_, _, _, _, _, _, h6, _⟩ := Add_absent_spec wf hk h
  refine ⟨j, c', by omega, h1, ?_, ?_⟩
  · intro fuel hf
    rw [Add_absent _ c k v hnone]
    exact evictLoop_mono h2 hf
  · by_cases h0 : c'.maxBytes = 0
    · exact Or.inr h0
    · exact Or.inl (not_lt.mp (fun hlt => h6 ⟨h0, hlt⟩))

theorem Add_returns_within_len_rounds_witness :
    WF sampleCache ∧ sampleCache.nBytes = usedBytes sampleCache ∧ 0 ≤ sampleCache.maxBytes ∧
    "d" ∉ keys sampleCache ∧
    ∃ j c', j ≤ sampleCache.ll.length + 1 ∧
      c' = RemoveOldest^[j] (pushEntry sampleCache "d" ⟨3, 9⟩) ∧
      (∀ fuel, j + 1 ≤ fuel → Add fuel sampleCache "d" ⟨3, 9⟩ = some c') ∧
      (c'.nBytes ≤ c'.maxBytes ∨ c'.maxBytes = 0) :=
  ⟨sampleCache_reachable.wf, by decide, by decide, by decide,
    Add_returns_within_len_rounds sampleCache "d" ⟨3, 9⟩ sampleCache_reachable.wf (by decide)
      (by decide) (by decide) (by decide) (by decide)⟩

/-- Claim C13: `Add` does not always return.  On `New(5, nil)`, after `Add("a", v)`,
`Add("a", v)` with `v.Len() = 3` the counter `nBytes` is 10 for one entry of size 4;
`Add("b", w)` with `w.Len() = 0` then evicts both entries and is left with an empty
list and `nBytes = 6 > 5`, so its loop runs for ever: no fuel gives a result. -/
theorem Add_loops_for_ever_after_overwrite :
    (exec 1 (New 5 false) [.add "a" ⟨1, 3⟩, .add "a" ⟨1, 3⟩]).map
      (fun c => (c.nBytes, usedBytes c)) = some (10, 4) ∧
    ∀ fuel, exec fuel (New 5 false) [.add "a" ⟨1, 3⟩, .add "a" ⟨1, 3⟩, .add "b" ⟨2, 0⟩]
      = none := by
  refine ⟨by decide, ?_⟩
  intro fuel
  cases fuel with
  | zero => decide
  | succ f =>
    have e1 : Add (f + 1) (New 5 false) "a" ⟨1, 3⟩ = some (pushEntry (New 5 false) "a" ⟨1, 3⟩) := by
      rw [Add_absent _ _ _ _ (by decide), evictLoop_done _ _ (by decide)]
    have e2 : Add (f + 1) (pushEntry (New 5 false) "a" ⟨1, 3⟩) "a" ⟨1, 3⟩ =
        some ⟨5, 10, [⟨"a", ⟨1, 3⟩⟩], [0], [("a", 0)], false, []⟩ := by
      rw [Add_present _ _ _ _ 0 (by decide)]
      decide
    simp only [exec, step, e1, e2, Option.some_bind, Option.bind_eq_none]
    intro c hc
    exfalso
    rw [Add_absent _ _ _ _ (by decide)] at hc
    have hstuck : ∀ fuel, evictLoop fuel
        (pushEntry ⟨5, 10, [⟨"a", ⟨1, 3⟩⟩], [0], [("a", 0)], false, []⟩ "b" ⟨2, 0⟩) = none := by
      apply evictLoop_none_of_next (by decide)
      apply evictLoop_none_of_next (by decide)
      exact evictLoop_stuck (by decide) (by decide)
    rw [hstuck] at hc
    cases hc

/-- Claim C14, as stated: `New(-1, cb)` does not fail.  It returns an empty cache
with `maxBytes = -1`, on which `Len()` is 0, `Get` misses and `RemoveOldest` changes
nothing. -/
theorem New_accepts_negative_capacity :
    New (-1) true = ⟨-1, 0, [], [], [], true, []⟩ ∧ Len (New (-1) true) = 0 ∧
    Get (New (-1) true) "k" = (none, New (-1) true) ∧
    RemoveOldest (New (-1) true) = New (-1) true := by
  decide

/-- Claim C14, amended: `New` has no failure result.  For every `maxBytes`, negative
or not, it returns an empty cache that holds this `maxBytes`, with `nBytes = 0` and
`Len() = 0`. -/
theorem New_returns_empty_cache (m : Int) (cb : Bool) :
    (New m cb).maxBytes = m ∧ (New m cb).nBytes = 0 ∧ Len (New m cb) = 0 ∧
    entries (New m cb) = [] ∧ (New m cb).cache = [] ∧ (New m cb).calls = [] ∧
    (New m cb).OnEvicted = cb ∧ Reachable (New m cb) :=
  ⟨rfl, rfl, rfl, rfl, rfl, rfl, rfl, ⟨m, cb, 0, [], rfl⟩⟩

/-- On a cache with a negative budget an `Add` of a new key with a size that is
not negative does not return. -/
theorem Add_negative_capacity_no_result (m : Int) (cb : Bool) (k : String) (v : Value)
    (hm : m < 0) (hv : 0 ≤ v.Len) : ∀ fuel, Add fuel (New m cb) k v = none := by
  intro fuel
  have hk := keyLen_nonneg k
  rw [Add_absent _ _ _ _ (by simp [New, mapGet])]
  have hob : overBudget (pushEntry (New m cb) k v) := by
    simp only [overBudget, pushEntry, New]
    constructor <;> omega
  have hb : Back (pushEntry (New m cb) k v).ll = some 0 := by simp [pushEntry, New, Back]
  apply evictLoop_none_of_next hob
  apply evictLoop_stuck
  · rw [RemoveOldest_back _ 0 hb]
    simp [pushEntry, New, Remove]
  · rw [RemoveOldest_back _ 0 hb]
    simp only [overBudget, pushEntry, New, entryAt]
    simp
    constructor <;> omega

/-! ## The worked example -/

theorem keyLen_one_a : keyLen "a" = 1 := by decide
theorem keyLen_one_b : keyLen "b" = 1 := by decide
theorem keyLen_one_c : keyLen "c" = 1 := by decide
theorem keyLen_one_d : keyLen "d" = 1 := by decide

/-- Claim C15: on `New(20, cb)` with values of length 5, the calls `Add("a")`,
`Add("b")`, `Add("c")`, `Add("d")` give `(nBytes, Len())` = `(6, 1)`, `(12, 2)`, `(18, 3)` and
`(18, 3)`; the last `Add` evicts `"a"` and nothing else, `OnEvicted` is called once in
all, with the key `"a"`, and afterwards `"b"`, `"c"`, `"d"` are found by `Get` and `"a"` is
not. -/
theorem worked_example (f : Nat) (cb : Bool) (t1 t2 t3 t4 : Nat) :
    (exec (f + 2) (New 20 cb) [.add "a" ⟨t1, 5⟩]).map (fun c => (c.nBytes, Len c))
      = some (6, 1) ∧
    (exec (f + 2) (New 20 cb) [.add "a" ⟨t1, 5⟩, .add "b" ⟨t2, 5⟩]).map
      (fun c => (c.nBytes, Len c)) = some (12, 2) ∧
    (exec (f + 2) (New 20 cb) [.add "a" ⟨t1, 5⟩, .add "b" ⟨t2, 5⟩, .add "c" ⟨t3, 5⟩]).map
      (fun c => (c.nBytes, Len c, c.calls)) = some (18, 3, []) ∧
    ∃ c, exec (f + 2) (New 20 cb)
        [.add "a" ⟨t1, 5⟩, .add "b" ⟨t2, 5⟩, .add "c" ⟨t3, 5⟩, .add "d" ⟨t4, 5⟩] = some c ∧
      c.nBytes = 18 ∧ Len c = 3 ∧
      entries c = [⟨"d", ⟨t4, 5⟩⟩, ⟨"c", ⟨t3, 5⟩⟩, ⟨"b", ⟨t2, 5⟩⟩] ∧
      c.calls = (if cb then [("a", ⟨t1, 5⟩)] else []) ∧
      (Get c "b").1 = some ⟨t2, 5⟩ ∧ (Get c "c").1 = some ⟨t3, 5⟩ ∧
      (Get c "d").1 = some ⟨t4, 5⟩ ∧ (Get c "a").1 = none := by
  refine ⟨?_, ?_, ?_, ?_⟩ <;>
  simp [exec, step, Add, New, mapGet, pushEntry, evictLoop, overBudget, RemoveOldest, Back,
    Remove, entryAt, mapSet, mapDelete, Len, Get, entries, keyLen_one_a, keyLen_one_b,
    keyLen_one_c, keyLen_one_d]

/-! ## A cache without a budget -/

theorem Get_fields (c : Cache) (k : String) :
    (Get c k).2.maxBytes = c.maxBytes ∧ (Get c k).2.calls = c.calls ∧
    (Get c k).2.nBytes = c.nBytes := by
  cases hk : mapGet c.cache k <;> simp [Get, hk]

theorem keys_Get {c : Cache} (wf : WF c) (k k' : String) :
    k' ∈ keys (Get c k).2 ↔ k' ∈ keys c := by
  cases hk : mapGet c.cache k with
  | none => simp [Get, hk]
  | some a => exact ((Get_hit_perm wf hk).map entry.key).mem_iff

/-- With `maxBytes = 0` a sequence of `Get`, `Add` and `Len` calls returns, calls
`OnEvicted` never and stores exactly the keys that were added. -/
theorem zero_budget_inv (cb : Bool) (f : Nat) (ops : List Op) (hops : Op.removeOldest ∉ ops) :
    ∃ c, exec (f + 1) (New 0 cb) ops = some c ∧ c.maxBytes = 0 ∧ c.calls = [] ∧
      ∀ k, k ∈ keys c ↔ k ∈ addedKeys ops := by
  induction ops using List.reverseRecOn with
  | nil => exact ⟨New 0 cb, rfl, rfl, rfl, by simp [keys, entries, New, addedKeys]⟩
  | append_singleton ops op ih =>
    have hops1 : Op.removeOldest ∉ ops := fun h => hops (List.mem_append_left _ h)
    have hop : op ≠ Op.removeOldest := fun h => hops (by simp [h])
    obtain ⟨c, hc, hm, hcalls, hkeys⟩ := ih hops1
    have wf : WF c := WF_exec (WF_New 0 cb) hc
    rw [exec_append, hc, Option.some_bind]
    cases op with
    | get k =>
      refine ⟨(Get c k).2, rfl, ?_, ?_, ?_⟩
      · rw [(Get_fields c k).1, hm]
      · rw [(Get_fields c k).2.1, hcalls]
      · intro k'
        rw [keys_Get wf, hkeys]
        simp [addedKeys, addedKey]
    | add k v =>
      cases hk : mapGet c.cache k with
      | some a =>
        have hadd := Add_present (f + 1) c k v a hk
        have hin : k ∈ keys c := (wf.mem_keys_iff k).mpr ⟨a, hk⟩
        refine ⟨_, hadd, hm, hcalls, ?_⟩
        intro k'
        have hent := entries_Add_present wf hk hadd
        simp only [keys, hent, List.map_cons, List.mem_cons, addedKeys, List.filterMap_append,
          List.mem_append]
        simp only [keys, addedKeys] at hkeys hin
        rw [← hkeys k']
        simp only [List.filterMap_cons, addedKey, List.filterMap_nil, List.mem_singleton,
          List.mem_map, List.mem_filter]
        constructor
        · rintro (rfl | ⟨e, ⟨he, _⟩, rfl⟩)
          · exact Or.inr rfl
          · exact Or.inl ⟨e, he, rfl⟩
        · rintro (⟨e, he, rfl⟩ | rfl)
          · by_cases hek : e.key = k
            · exact Or.inl hek
            · exact Or.inr ⟨e, ⟨he, by simpa using hek⟩, rfl⟩
          · exact Or.inl rfl
      | none =>
        have hnot : ¬ overBudget (pushEntry c k v) := fun h => h.1 hm
        refine ⟨pushEntry c k v, ?_, hm, hcalls, ?_⟩
        · rw [step, Add_absent _ c k v hk, evictLoop_done f _ hnot]
        · intro k'
          simp only [keys, entries_pushEntry wf k v, List.map_cons, List.mem_cons, addedKeys,
            List.filterMap_append, List.mem_append]
          simp only [keys, addedKeys] at hkeys
          rw [← hkeys k']
          simp only [List.filterMap_cons, addedKey, List.filterMap_nil, List.mem_singleton]
          tauto
    | removeOldest => exact absurd rfl hop
    | len =>
      refine ⟨c, rfl, hm, hcalls, ?_⟩
      intro k'
      rw [hkeys]
      simp [addedKeys, addedKey]

/-- Claim C12: on `New(0, cb)` no sequence of `Get` and `Add` calls evicts an entry.
Every such sequence returns, `OnEvicted` is never called, every key that was added
is found by `Get` with the value of its last `Add`, and `Len()` is the number of
distinct keys that were added. -/
theorem zero_budget_never_evicts (cb : Bool) (fuel : Nat) (ops : List Op) (hf : 1 ≤ fuel)
    (hops : Op.removeOldest ∉ ops) :
    ∃ c, exec fuel (New 0 cb) ops = some c ∧ c.calls = [] ∧
      (∀ k ∈ addedKeys ops, ∃ v, lastAdded ops k = some v ∧ (Get c k).1 = some v) ∧
      (∀ k, k ∈ keys c ↔ k ∈ addedKeys ops) ∧
      Len c = ((addedKeys ops).dedup.length : Int) := by
  obtain ⟨f, rfl⟩ : ∃ f, fuel = f + 1 := ⟨fuel - 1, by omega⟩
  obtain ⟨c, hc, _, hcalls, hkeys⟩ := zero_budget_inv cb f ops hops
  have wf : WF c := WF_exec (WF_New 0 cb) hc
  refine ⟨c, hc, hcalls, ?_, hkeys, ?_⟩
  · intro k hk
    obtain ⟨a, ha⟩ := (wf.mem_keys_iff k).mp ((hkeys k).mpr hk)
    have hi := (wf.index k a).mp ha
    have hlast := stored_is_lastAdded 0 cb (f + 1) ops c hc _ (entryAt_mem_entries hi.1)
    rw [hi.2] at hlast
    exact ⟨(entryAt c a).value, hlast, by simp [Get, ha]⟩
  · have hp : (keys c).Perm (addedKeys ops).dedup := by
      apply (List.perm_ext_iff_of_nodup wf.keys_nodup (List.nodup_dedup _)).mpr
      intro k
      rw [List.mem_dedup]
      exact hkeys k
    have := hp.length_eq
    simp only [keys, entries, List.length_map] at this
    simp [Len, this]

theorem zero_budget_never_evicts_witness :
    Op.removeOldest ∉ sampleOps ∧
    ∃ c, exec 1 (New 0 true) sampleOps = some c ∧ c.calls = [] ∧
      (∀ k ∈ addedKeys sampleOps, ∃ v, lastAdded sampleOps k = some v ∧
        (Get c k).1 = some v) ∧
      (∀ k, k ∈ keys c ↔ k ∈ addedKeys sampleOps) ∧
      Len c = ((addedKeys sampleOps).dedup.length : Int) :=
  ⟨by decide, zero_budget_never_evicts true 1 sampleOps (by decide) (by decide)⟩

end Lru
